import Mathlib

/-!
Verification of the on-demand retrieval (ODR) layer of the truechain light
client (`les/fast/odr_util.go`, package `fast`) and of the in-memory
key-value store (`etruedb/memorydb/memorydb.go`).

The Go code is shallowly embedded: hashes and byte strings are `Nat` and
`List Nat` (the zero hash `common.Hash{}` is `0`), the database reached via
`odr.Database()` is a record of lookup functions, the remote channel
(`odr.FastRetrieve`) is a record of oracle functions, and the single mutation
performed by the code (`rawdb.WriteReceipts`) is explicit state passing.
Functions additionally return instrumentation that records exactly the remote
requests issued and the local writes performed, so that "no request was sent"
and "no write happened" are provable statements.
-/

namespace Fast

/-- Raw byte strings (`[]byte`, `rlp.RawValue`). -/
abbrev Bytes := List Nat

/-- A log entry (`*types.Log`); its contents are opaque to this layer. -/
abbrev Log := Nat

/-- A chain configuration (`*params.ChainConfig`); opaque to this layer. -/
abbrev ChainConfig := Nat

/-- `types.Header`, reduced to the two observations the ODR layer makes of it:
its hash (`header.Hash()`) and its height (`header.Number.Uint64()`). -/
structure Header where
  hash : Nat
  number : Nat
deriving DecidableEq, Repr

/-- A transaction (`*types.Transaction`), observed only through `tx.Hash()`. -/
structure Tx where
  hash : Nat
deriving DecidableEq, Repr

/-- `types.Body`: transactions plus the auxiliary per-block collections
(`Signs`, `Infos`), which are opaque here. -/
structure Body where
  transactions : List Tx
  signs : List Nat
  infos : List Nat
deriving DecidableEq, Repr

/-- A block assembled by `types.NewBlockWithHeader(header).WithBody(...)`;
`block.Hash()` is the header hash and `block.NumberU64()` the header height. -/
structure Block where
  header : Header
  body : Body
deriving DecidableEq, Repr

/-- `types.Receipt`, reduced to the derived transaction-hash-linkage field
(`TxHash`, zero when not yet derived) and the logs. -/
structure Receipt where
  txHash : Nat
  logs : List Log
deriving DecidableEq, Repr

/-- The typed failures of the ODR operations.  `transport` carries the error
propagated verbatim from `odr.FastRetrieve`; `panicked` models a Go panic. -/
inductive Err where
  | noHeader
  | noTrustedBloomTrie
  | decodeFail
  | deriveFail
  | transport (code : Nat)
  | panicked (msg : String)
deriving DecidableEq, Repr

/-- The `BloomRequest` constructed by `GetBloomBits`. -/
structure BloomRequest where
  bloomTrieRoot : Nat
  bloomTrieNum : Nat
  bitIdx : Nat
  sectionIndexList : List Nat
deriving DecidableEq, Repr

/-- The locator inside a transaction-status answer (`pos` in the source). -/
structure TxLookup where
  blockHash : Nat
  blockIndex : Nat
  index : Nat
deriving DecidableEq, Repr

/-- One entry of `r.Status` in a `TxStatusRequest` answer. -/
structure TxStatusEntry where
  status : Nat
  lookup : TxLookup
deriving DecidableEq, Repr

/-- `core.TxStatusIncluded` (the fourth member of the status enumeration). -/
def txStatusIncluded : Nat := 3

/-- The local persistent store as read through `rawdb`.  `canonicalHash`
returns the zero hash (`0`) when no canonical hash is recorded; `bloomBits`
returns `none` exactly when `rawdb.ReadBloomBits` returns an error;
`bloomTrieRoot` is `GetBloomTrieRoot`, a pure read of the same database. -/
structure LocalStore where
  canonicalHash : Nat → Nat
  header : Nat → Nat → Option Header
  bodyRLP : Nat → Nat → Option Bytes
  rawReceipts : Nat → Nat → Option (List Receipt)
  bloomBits : Nat → Nat → Nat → Option Bytes
  chainConfig : Nat → Option ChainConfig
  bloomTrieRoot : Nat → Nat → Nat

/-- The remote channel: one oracle per request kind submitted through
`odr.FastRetrieve`.  An `Except.error c` is a transport failure propagated
verbatim; the oracles are pure, so a repeated identical request yields the
identical answer. -/
structure Remote where
  retrieveBody : Nat → Nat → Except Nat Bytes
  retrieveReceipts : Nat → Nat → Except Nat (List Receipt)
  retrieveUntrustedReceipts : Header → Except Nat (List Receipt)
  retrieveBloom : BloomRequest → Except Nat (List Bytes)
  retrieveTxStatus : Nat → Except Nat TxStatusEntry

/-- The bloom-trie indexer (`odr.BloomTrieIndexer()`): `sections` is the
`(count, sectionHeadNum, sectionHead)` triple returned by `Sections()`, and
`sectionHead` is `SectionHead(idx)`. -/
structure Indexer where
  sections : Nat × Nat × Nat
  sectionHead : Nat → Nat

/-- The `OdrBackend`: database, remote channel, optional bloom-trie indexer
and the `FastIndexerConfig()` sizes.  `decodeBody` models `rlp.Decode` into a
`types.Body` (an external codec): `none` is a decode failure. -/
structure OdrBackend where
  store : LocalStore
  remote : Remote
  indexer : Option Indexer
  bloomSize : Nat
  bloomTrieSize : Nat
  decodeBody : Bytes → Option Body

/-- `GetHeaderByNumber`: read the canonical hash at the height; when it is
non-zero the header keyed by (hash, height) must exist — its absence is the
panic `"Canonical hash present but header not found"`, modelled as
`Err.panicked`.  When no canonical hash is recorded the result is
`(nil, nil)`, i.e. `.ok none`. -/
def GetHeaderByNumber (odr : OdrBackend) (number : Nat) : Except Err (Option Header) :=
  let hash := odr.store.canonicalHash number
  if hash ≠ 0 then
    match odr.store.header hash number with
    | none => .error (.panicked "Canonical hash present but header not found")
    | some header => .ok (some header)
  else .ok none

/-- `GetCanonicalHash`: return the recorded canonical hash when non-zero;
otherwise fall back to `GetHeaderByNumber` and return that header's hash when
a header came back, and the zero hash with the (always nil) error otherwise. -/
def GetCanonicalHash (odr : OdrBackend) (number : Nat) : Except Err Nat :=
  let hash := odr.store.canonicalHash number
  if hash ≠ 0 then .ok hash
  else
    match GetHeaderByNumber odr number with
    | .error e => .error e
    | .ok (some header) => .ok header.hash
    | .ok none => .ok 0

/-- Direct read of the recorded canonical hash, written after the spec's
words for C9: "returns the locally recorded canonical hash when one is
non-zero and the zero hash otherwise, always with a nil error".  In this
embedding an absent canonical hash is already the zero value, so the direct
read is the store field itself. -/
def canonicalHashDirect (odr : OdrBackend) (number : Nat) : Except Err Nat :=
  .ok (odr.store.canonicalHash number)

/-- `GetBodyRLP`: local lookup of the raw body; on a miss issue a
`BlockRequest` and return its `Rlp` payload.  The second component records
the `(hash, number)` body requests issued over the remote channel. -/
def GetBodyRLP (odr : OdrBackend) (hash number : Nat) :
    Except Err Bytes × List (Nat × Nat) :=
  match odr.store.bodyRLP hash number with
  | some data => (.ok data, [])
  | none =>
    match odr.remote.retrieveBody hash number with
    | .error c => (.error (.transport c), [(hash, number)])
    | .ok rlp => (.ok rlp, [(hash, number)])

/-- `GetBody`: decode the raw payload of `GetBodyRLP`; a decode failure is a
hard error. -/
def GetBody (odr : OdrBackend) (hash number : Nat) :
    Except Err Body × List (Nat × Nat) :=
  match GetBodyRLP odr hash number with
  | (.error e, log) => (.error e, log)
  | (.ok data, log) =>
    match odr.decodeBody data with
    | none => (.error .decodeFail, log)
    | some body => (.ok body, log)

/-- `GetBlock`: read the header locally (a miss is `ErrNoHeader`, never a
remote header fetch), resolve the body, and assemble the block. -/
def GetBlock (odr : OdrBackend) (hash number : Nat) :
    Except Err Block × List (Nat × Nat) :=
  match odr.store.header hash number with
  | none => (.error .noHeader, [])
  | some header =>
    match GetBody odr hash number with
    | (.error e, log) => (.error e, log)
    | (.ok body, log) => (.ok ⟨header, body⟩, log)

/-- `rawdb.WriteReceipts`: record the receipt set under (hash, number) in the
local store, leaving every other key and field untouched. -/
def writeReceipts (odr : OdrBackend) (hash number : Nat) (rs : List Receipt) :
    OdrBackend :=
  { odr with
    store :=
      { odr.store with
        rawReceipts := fun h n =>
          if h = hash ∧ n = number then some rs else odr.store.rawReceipts h n } }

/-- Modelled from the spec: `types.Receipts.DeriveFields` is not among the
given sources (only its caller is).  Per §4.3 it computes the derived fields
of each receipt from the owning block's context — in particular the
transaction-hash-linkage field, which becomes the hash of the corresponding
transaction — and fails when the transaction and receipt counts disagree.
The chain configuration and block identity parameterize derived fields that
this layer never inspects, so they are accepted and ignored here. -/
def deriveFields (_config : Option ChainConfig) (_blockHash _blockNumber : Nat)
    (txs : List Tx) (rs : List Receipt) : Except Err (List Receipt) :=
  if txs.length = rs.length then
    .ok ((txs.zip rs).map fun p => { p.2 with txHash := p.1.hash })
  else .error .deriveFail

/-- `GetBlockReceipts`: local lookup of the raw receipts, remote fetch on a
miss; if the first receipt's transaction-hash-linkage field is the zero hash,
resolve the block and the chain configuration, derive the fields and persist
the derived set.  Returns the receipts, the possibly-updated backend and the
list of `(hash, number)` receipt writes performed. -/
def GetBlockReceipts (odr : OdrBackend) (hash number : Nat) :
    Except Err (List Receipt) × OdrBackend × List (Nat × Nat) :=
  match (match odr.store.rawReceipts hash number with
         | some rs => Except.ok rs
         | none =>
           match odr.remote.retrieveReceipts hash number with
           | .error c => Except.error (Err.transport c)
           | .ok rs => Except.ok rs : Except Err (List Receipt)) with
  | .error e => (.error e, odr, [])
  | .ok [] => (.ok [], odr, [])
  | .ok (r0 :: rest) =>
    if r0.txHash = 0 then
      match (GetBlock odr hash number).1 with
      | .error e => (.error e, odr, [])
      | .ok block =>
        let genesis := odr.store.canonicalHash 0
        let config := odr.store.chainConfig genesis
        match deriveFields config block.header.hash block.header.number
            block.body.transactions (r0 :: rest) with
        | .error e => (.error e, odr, [])
        | .ok rs2 => (.ok rs2, writeReceipts odr hash number rs2, [(hash, number)])
    else (.ok (r0 :: rest), odr, [])

/-- `GetUntrustedBlockLogs`: local lookup of the raw receipts keyed by the
header, untrusted remote fetch on a miss, and projection of the logs with no
derived-field computation and no write-back. -/
def GetUntrustedBlockLogs (odr : OdrBackend) (header : Header) :
    Except Err (List (List Log)) × OdrBackend × List (Nat × Nat) :=
  match odr.store.rawReceipts header.hash header.number with
  | some receipts => (.ok (receipts.map Receipt.logs), odr, [])
  | none =>
    match odr.remote.retrieveUntrustedReceipts header with
    | .error c => (.error (.transport c), odr, [])
    | .ok receipts => (.ok (receipts.map Receipt.logs), odr, [])

/-- The trust-boundary reconciliation loop of `GetBloomBits`, one constructor
case per loop test: while the count is non-zero and the canonical hash at the
presumed head height differs from the presumed head hash and is not the zero
hash, decrement the count and — only while it is still non-zero — recompute
the head height (`count * BloomTrieSize - 1`), the head hash
(`SectionHead (count - 1)`) and the canonical hash at the new head height.
Returns the final `(count, sectionHeadNum, sectionHead)` triple. -/
def reconcileState (size : Nat) (canon sh : Nat → Nat) :
    Nat → Nat → Nat → Nat × Nat × Nat
  | 0, headNum, head => (0, headNum, head)
  | c + 1, headNum, head =>
    if canon headNum = head ∨ canon headNum = 0 then (c + 1, headNum, head)
    else if c = 0 then (0, headNum, head)
    else reconcileState size canon sh c (c * size - 1) (sh (c - 1))

/-- The `(bloomTrieCount, sectionHeadNum, sectionHead)` state `GetBloomBits`
works with after reconciliation: the zero triple when no bloom-trie indexer
is installed, and the reconciled `Sections()` triple otherwise. -/
def reconciledBoundary (odr : OdrBackend) : Nat × Nat × Nat :=
  match odr.indexer with
  | none => (0, 0, 0)
  | some ix =>
    reconcileState odr.bloomTrieSize odr.store.canonicalHash ix.sectionHead
      ix.sections.1 ix.sections.2.1 ix.sections.2.2

/-- The local lookup `GetBloomBits` performs for one section: the canonical
hash at the section's closing height `(sectionIdx + 1) * BloomSize - 1` keys
the stored compressed bit-vector together with the bit and section indices. -/
def localBloom (odr : OdrBackend) (bitIdx sectionIdx : Nat) : Option Bytes :=
  odr.store.bloomBits bitIdx sectionIdx
    (odr.store.canonicalHash ((sectionIdx + 1) * odr.bloomSize - 1))

/-- The `(i, sectionIdx)` pairs of `for i, sectionIdx := range sectionIdxList`,
starting at index `k`. -/
def enumSections : Nat → List Nat → List (Nat × Nat)
  | _, [] => []
  | k, s :: rest => (k, s) :: enumSections (k + 1) rest

/-- The per-section loop of `GetBloomBits` over the indexed section list:
a local hit fills its own result slot (`result[i] = bloomBits`); a miss at or
beyond the trusted count is `ErrNoTrustedBloomTrie`; any other miss appends
the section to `reqList` and its slot to `reqIdx`. -/
def gatherLoop (odr : OdrBackend) (bitIdx cnt : Nat) :
    List (Nat × Nat) → List (Option Bytes) → List Nat → List Nat →
    Except Err (List (Option Bytes) × List Nat × List Nat)
  | [], res, reqList, reqIdx => .ok (res, reqList, reqIdx)
  | (i, s) :: rest, res, reqList, reqIdx =>
    match localBloom odr bitIdx s with
    | some v => gatherLoop odr bitIdx cnt rest (res.set i (some v)) reqList reqIdx
    | none =>
      if cnt ≤ s then .error .noTrustedBloomTrie
      else gatherLoop odr bitIdx cnt rest res (reqList ++ [s]) (reqIdx ++ [i])

/-- The scatter step of `GetBloomBits`: `result[reqIdx[i]] = r.BloomBits[i]`
for each queued miss, walking `reqIdx` and the response in lockstep. -/
def scatterResp : List (Option Bytes) → List Nat → List Bytes → List (Option Bytes)
  | res, [], _ => res
  | res, _, [] => res
  | res, i :: reqIdx, b :: resp => scatterResp (res.set i (some b)) reqIdx resp

/-- `GetBloomBits`: reconcile the trust boundary, satisfy each requested
section locally where possible, fail on any miss at or beyond the trusted
count, send exactly one batched `BloomRequest` for the remaining misses (none
when every section hit locally), and scatter the response back into the
recorded slots.  The second component records the bloom requests issued; the
`panicked` branch models the Go index-out-of-range panic on a short answer. -/
def GetBloomBits (odr : OdrBackend) (bitIdx : Nat) (sectionIdxList : List Nat) :
    Except Err (List (Option Bytes)) × List BloomRequest :=
  let bd := reconciledBoundary odr
  match gatherLoop odr bitIdx bd.1 (enumSections 0 sectionIdxList)
      (List.replicate sectionIdxList.length none) [] [] with
  | .error e => (.error e, [])
  | .ok (res, reqList, reqIdx) =>
    if reqList = [] then (.ok res, [])
    else
      let r : BloomRequest :=
        ⟨odr.store.bloomTrieRoot (bd.1 - 1) bd.2.2, bd.1 - 1, bitIdx, reqList⟩
      match odr.remote.retrieveBloom r with
      | .error c => (.error (.transport c), [r])
      | .ok resp =>
        if resp.length < reqIdx.length then
          (.error (.panicked "index out of range"), [r])
        else (.ok (scatterResp res reqIdx resp), [r])

/-- A remote channel whose every oracle fails; used to build concrete
backends in the witnesses. -/
def emptyRemote : Remote :=
  ⟨fun _ _ => .error 0, fun _ _ => .error 0, fun _ => .error 0,
   fun _ => .error 0, fun _ => .error 0⟩

/-- An empty local store; used to build concrete backends in the witnesses. -/
def emptyStore : LocalStore :=
  ⟨fun _ => 0, fun _ _ => none, fun _ _ => none, fun _ _ => none,
   fun _ _ _ => none, fun _ => none, fun _ _ => 0⟩

/-- A backend over the given store with no indexer and a dead remote channel. -/
def mkLocalBackend (store : LocalStore) : OdrBackend :=
  ⟨store, emptyRemote, none, 1, 1, fun _ => none⟩

/-- A concrete backend for the C5 witness: an underived receipt set stored at
(hash 5, height 1), whose owning block has a single transaction with hash 7. -/
def odrDerive : OdrBackend :=
  { mkLocalBackend
      { emptyStore with
        header := fun h n => if h = 5 ∧ n = 1 then some ⟨5, 1⟩ else none
        bodyRLP := fun h n => if h = 5 ∧ n = 1 then some [1] else none
        rawReceipts := fun h n => if h = 5 ∧ n = 1 then some [⟨0, [11]⟩] else none } with
    decodeBody := fun _ => some ⟨[⟨7⟩], [], []⟩ }

/-- A concrete backend for the C6 witness: nothing stored locally, an
untrusted remote answer with one receipt carrying log 3. -/
def odrUntrusted : OdrBackend :=
  { mkLocalBackend emptyStore with
    remote := { emptyRemote with retrieveUntrustedReceipts := fun _ => .ok [⟨0, [3]⟩] } }

/-- A concrete indexer for the C1 witness: trusted count 2, presumed head
height 7 and head hash 6; all section heads are hash 9. -/
def reconIx : Indexer := ⟨(2, 7, 6), fun _ => 9⟩

/-- A concrete backend for the C1 witness: `BloomTrieSize` 4, canonical hash
5 at the stale presumed head height 7 (≠ 6 and non-zero, forcing a rollback)
and canonical hash 9 at height `1 * 4 - 1 = 3` (matching section head 9). -/
def odrRecon : OdrBackend :=
  { mkLocalBackend
      { emptyStore with
        canonicalHash := fun n => if n = 7 then 5 else if n = 3 then 9 else 0 } with
    indexer := some reconIx
    bloomTrieSize := 4 }

/-- A concrete backend for the C2 witness, following the spec's end-to-end
scenario: `BloomSize` 4, so section 10 closes at height 43 and section 11 at
height 47; the bit-vector for (bit 3, section 10) is stored locally under the
canonical hash 100 recorded at height 43, section 11 is absent; the trusted
count is 12 with an up-to-date section head (hash 7 at height 50); the
remote channel answers every bloom request with the single vector [9, 9]. -/
def odrBloom : OdrBackend :=
  { mkLocalBackend
      { emptyStore with
        canonicalHash := fun n => if n = 43 then 100 else if n = 50 then 7 else 0
        bloomBits := fun b s h =>
          if b = 3 ∧ s = 10 ∧ h = 100 then some [1, 2] else none } with
    remote := { emptyRemote with retrieveBloom := fun _ => .ok [[9, 9]] }
    indexer := some ⟨(12, 50, 7), fun _ => 7⟩
    bloomSize := 4
    bloomTrieSize := 8 }

/-- The indexed misses of a `GetBloomBits` call: the `(slot, section)` pairs
of the requested list whose local lookup fails, in request order. -/
def missPairs (odr : OdrBackend) (bitIdx : Nat) (sectionIdxList : List Nat) :
    List (Nat × Nat) :=
  (enumSections 0 sectionIdxList).filter fun p => (localBloom odr bitIdx p.2).isNone

/-- The hash Go computes for a nil header pointer (`header.Hash()` hashes the
encoding of the nil pointer): a fixed constant distinct in practice from both
the zero hash and every real block hash; its exact value is irrelevant to the
theorems, which always resolve an actual header. -/
def nilHeaderHash : Nat := 2 ^ 256

/-- `header.Hash()` on the possibly-nil pointer returned by
`GetHeaderByNumber`. -/
def headerHashOrNil : Option Header → Nat
  | some h => h.hash
  | none => nilHeaderHash

/-- The Go quintuple returned by `GetTransaction`: transaction (nil on
failure), containing-block hash, height, index within the body, and error. -/
structure TxResult where
  tx : Option Tx
  blockHash : Nat
  blockIndex : Nat
  index : Nat
  err : Option Err
deriving DecidableEq, Repr

/-- `GetTransaction`: remote status lookup for one hash; on an included
status, validate the locator — the canonical header at the claimed height
must hash to the claimed block hash, the index must be in bounds of the
resolved body, and the transaction there must hash to the queried hash —
failing (nil transaction) on any mismatch.  The `Except.error` case
propagates a `GetHeaderByNumber` panic. -/
def GetTransaction (odr : OdrBackend) (txHash : Nat) : Except Err TxResult :=
  match odr.remote.retrieveTxStatus txHash with
  | .error c => .ok ⟨none, 0, 0, 0, some (.transport c)⟩
  | .ok st =>
    if st.status ≠ txStatusIncluded then .ok ⟨none, 0, 0, 0, none⟩
    else
      match GetHeaderByNumber odr st.lookup.blockIndex with
      | .error e => .error e
      | .ok hOpt =>
        if headerHashOrNil hOpt ≠ st.lookup.blockHash then .ok ⟨none, 0, 0, 0, none⟩
        else
          match (GetBody odr st.lookup.blockHash st.lookup.blockIndex).1 with
          | .error e => .ok ⟨none, 0, 0, 0, some e⟩
          | .ok body =>
            match body.transactions[st.lookup.index]? with
            | none => .ok ⟨none, 0, 0, 0, none⟩
            | some tx =>
              if tx.hash ≠ txHash then .ok ⟨none, 0, 0, 0, none⟩
              else .ok ⟨some tx, st.lookup.blockHash, st.lookup.blockIndex,
                st.lookup.index, none⟩

/-- A concrete backend for the C4 witness: height 4 has canonical hash 9 with
its header stored, but the remote status answer claims the transaction lives
in block hash 99 at height 4. -/
def odrTxBad : OdrBackend :=
  { mkLocalBackend
      { emptyStore with
        canonicalHash := fun n => if n = 4 then 9 else 0
        header := fun h n => if h = 9 ∧ n = 4 then some ⟨9, 4⟩ else none } with
    remote := { emptyRemote with retrieveTxStatus := fun _ => .ok ⟨3, 99, 4, 0⟩ } }

end Fast

namespace Memorydb

/-- The failures of `MemoryDatabase` data access: `errMemorydbClosed` and
`errMemorydbNotFound`, distinct error values. -/
inductive MemErr where
  | closed
  | notFound
deriving DecidableEq, Repr

/-- The Go `map[string][]byte` as an association list over byte-string keys,
looked up front-first; insertion prepends, so the first binding found is the
current one (matching map overwrite semantics). -/
def assocGet : List (List Nat × List Nat) → List Nat → Option (List Nat)
  | [], _ => none
  | (k, v) :: rest, key => if k = key then some v else assocGet rest key

/-- `MemoryDatabase`: the `db` map is `none` once `Close` has set it to nil. -/
structure MemoryDatabase where
  db : Option (List (List Nat × List Nat))
deriving DecidableEq, Repr

/-- `New`: an open, empty database. -/
def MemoryDatabase.new : MemoryDatabase := ⟨some []⟩

/-- `Close`: deallocates the internal map (sets it to nil) so that every
consecutive data-access operation fails; its own Go error is always nil. -/
def MemoryDatabase.close (_d : MemoryDatabase) : MemoryDatabase := ⟨none⟩

/-- `Has`: key-presence test, failing on a closed database. -/
def MemoryDatabase.has (d : MemoryDatabase) (key : List Nat) : Except MemErr Bool :=
  match d.db with
  | none => .error .closed
  | some m => .ok (assocGet m key).isSome

/-- `Get`: returns (a copy of — value semantics here) the stored value when
the key is present, the not-found error when absent, and the closed error
when the database was closed.  The `Except` shape never pairs a value with
an error, matching the Go contract of never returning (nil, nil). -/
def MemoryDatabase.get (d : MemoryDatabase) (key : List Nat) :
    Except MemErr (List Nat) :=
  match d.db with
  | none => .error .closed
  | some m =>
    match assocGet m key with
    | some v => .ok v
    | none => .error .notFound

/-- `Put`: inserts (a copy of) the value under the key, failing when closed. -/
def MemoryDatabase.put (d : MemoryDatabase) (key value : List Nat) :
    Except MemErr MemoryDatabase :=
  match d.db with
  | none => .error .closed
  | some m => .ok ⟨some ((key, value) :: m)⟩

end Memorydb

namespace Fast

/-- C7: for every height where a canonical hash is recorded locally,
`GetHeaderByNumber` returns the header stored under (that hash, height); if
the canonical hash is recorded but the keyed header is absent, the operation
panics instead of returning a value or a silent miss. -/
theorem getHeaderByNumber_canonical_consistency (odr : OdrBackend) (n : Nat)
    (hcanon : odr.store.canonicalHash n ≠ 0) :
    (∀ h, odr.store.header (odr.store.canonicalHash n) n = some h →
        GetHeaderByNumber odr n = .ok (some h))
    ∧ (odr.store.header (odr.store.canonicalHash n) n = none →
        GetHeaderByNumber odr n =
          .error (.panicked "Canonical hash present but header not found")) := by
  constructor
  · intro h hh
    simp [GetHeaderByNumber, hcanon, hh]
  · intro hh
    simp [GetHeaderByNumber, hcanon, hh]

/-- Witness for C7 at a concrete store: canonical hash 9 recorded at height 4
with the matching header present. -/
theorem getHeaderByNumber_canonical_consistency_witness :
    GetHeaderByNumber
      (mkLocalBackend
        { emptyStore with
          canonicalHash := fun n => if n = 4 then 9 else 0
          header := fun h n => if h = 9 ∧ n = 4 then some ⟨9, 4⟩ else none })
      4 = .ok (some ⟨9, 4⟩) :=
  (getHeaderByNumber_canonical_consistency _ 4 (by decide)).1 ⟨9, 4⟩ (by decide)

/-- C8: header resolution never issues a remote request — `GetHeaderByNumber`
is insensitive to the whole remote channel, returns a nil header with a nil
error when no canonical hash is recorded, and `GetBlock` reports the distinct
`ErrNoHeader` with no body request issued when the header is missing locally. -/
theorem header_resolution_local_only (odr : OdrBackend) (R : Remote)
    (n hash number : Nat) :
    GetHeaderByNumber { odr with remote := R } n = GetHeaderByNumber odr n
    ∧ (odr.store.canonicalHash n = 0 → GetHeaderByNumber odr n = .ok none)
    ∧ (odr.store.header hash number = none →
        GetBlock odr hash number = (.error .noHeader, [])) := by
  refine ⟨rfl, ?_, ?_⟩
  · intro h
    simp [GetHeaderByNumber, h]
  · intro h
    simp [GetBlock, h]

/-- Witness for C8 on the empty backend: nothing is recorded, so
header-by-height reports absence and `GetBlock` reports `ErrNoHeader` without
touching the remote channel. -/
theorem header_resolution_local_only_witness :
    GetHeaderByNumber (mkLocalBackend emptyStore) 7 = .ok none
    ∧ GetBlock (mkLocalBackend emptyStore) 5 7 = (.error .noHeader, []) :=
  ⟨(header_resolution_local_only (mkLocalBackend emptyStore) emptyRemote 7 5 7).2.1 rfl,
   (header_resolution_local_only (mkLocalBackend emptyStore) emptyRemote 7 5 7).2.2 rfl⟩

/-- Reading back the key just written by `writeReceipts`. -/
theorem writeReceipts_read_back (odr : OdrBackend) (hash number : Nat)
    (rs : List Receipt) :
    (writeReceipts odr hash number rs).store.rawReceipts hash number = some rs := by
  simp [writeReceipts]

/-- A successful derivation preserves the receipt count. -/
theorem deriveFields_ok_length (config : Option ChainConfig) (bh bn : Nat)
    (txs : List Tx) (rs rs2 : List Receipt)
    (h : deriveFields config bh bn txs rs = .ok rs2) : rs2.length = rs.length := by
  unfold deriveFields at h
  split at h
  next hlen => cases h; simp [List.length_zip, hlen]
  next => cases h

/-- C5: receipt derived-field enrichment is idempotent.  If a call to
`GetBlockReceipts` succeeds with receipts `rs` (leaving the backend in state
`odr1`) and the resulting first receipt carries a non-zero transaction-hash
linkage (true whenever the transaction hash function never yields the zero
sentinel), then a second call returns the identical output, performs no
persistence write (empty write log) and leaves the state untouched; since
every successful derivation appends a write, the empty write log also shows
the second call performed no derivation. -/
theorem getBlockReceipts_idempotent (odr : OdrBackend) (hash number : Nat)
    (rs : List Receipt) (odr1 : OdrBackend) (w1 : List (Nat × Nat))
    (h1 : GetBlockReceipts odr hash number = (.ok rs, odr1, w1))
    (hnz : ∀ r0 rest, rs = r0 :: rest → r0.txHash ≠ 0) :
    GetBlockReceipts odr1 hash number = (.ok rs, odr1, []) := by
  cases hloc : odr.store.rawReceipts hash number with
  | some rs0 =>
    cases rs0 with
    | nil =>
      simp [GetBlockReceipts, hloc] at h1
      obtain ⟨h1a, h1b, h1c⟩ := h1
      subst h1a; subst h1b
      simp [GetBlockReceipts, hloc]
    | cons r0 rest =>
      by_cases hz : r0.txHash = 0
      · cases hblk : (GetBlock odr hash number).1 with
        | error e => simp [GetBlockReceipts, hloc, hz, hblk] at h1
        | ok block =>
          cases hdf : deriveFields (odr.store.chainConfig (odr.store.canonicalHash 0))
              block.header.hash block.header.number
              block.body.transactions (r0 :: rest) with
          | error e => simp [GetBlockReceipts, hloc, hz, hblk, hdf] at h1
          | ok rs2 =>
            simp [GetBlockReceipts, hloc, hz, hblk, hdf] at h1
            obtain ⟨h1a, h1b, h1c⟩ := h1
            subst h1a; subst h1b
            have hlen := deriveFields_ok_length _ _ _ _ _ _ hdf
            cases rs2 with
            | nil => simp at hlen
            | cons r0' rest' =>
              have hnz' : r0'.txHash ≠ 0 := hnz r0' rest' rfl
              simp [GetBlockReceipts, writeReceipts_read_back, hnz']
      · simp [GetBlockReceipts, hloc, hz] at h1
        obtain ⟨h1a, h1b, h1c⟩ := h1
        subst h1a; subst h1b
        simp [GetBlockReceipts, hloc, hz]
  | none =>
    cases hrem : odr.remote.retrieveReceipts hash number with
    | error c => simp [GetBlockReceipts, hloc, hrem] at h1
    | ok rs0 =>
      cases rs0 with
      | nil =>
        simp [GetBlockReceipts, hloc, hrem] at h1
        obtain ⟨h1a, h1b, h1c⟩ := h1
        subst h1a; subst h1b
        simp [GetBlockReceipts, hloc, hrem]
      | cons r0 rest =>
        by_cases hz : r0.txHash = 0
        · cases hblk : (GetBlock odr hash number).1 with
          | error e => simp [GetBlockReceipts, hloc, hrem, hz, hblk] at h1
          | ok block =>
            cases hdf : deriveFields (odr.store.chainConfig (odr.store.canonicalHash 0))
                block.header.hash block.header.number
                block.body.transactions (r0 :: rest) with
            | error e => simp [GetBlockReceipts, hloc, hrem, hz, hblk, hdf] at h1
            | ok rs2 =>
              simp [GetBlockReceipts, hloc, hrem, hz, hblk, hdf] at h1
              obtain ⟨h1a, h1b, h1c⟩ := h1
              subst h1a; subst h1b
              have hlen := deriveFields_ok_length _ _ _ _ _ _ hdf
              cases rs2 with
              | nil => simp at hlen
              | cons r0' rest' =>
                have hnz' : r0'.txHash ≠ 0 := hnz r0' rest' rfl
                simp [GetBlockReceipts, writeReceipts_read_back, hnz']
        · simp [GetBlockReceipts, hloc, hrem, hz] at h1
          obtain ⟨h1a, h1b, h1c⟩ := h1
          subst h1a; subst h1b
          simp [GetBlockReceipts, hloc, hrem, hz]

/-- Witness for C5: on `odrDerive` the first call derives the linkage field
(writing once) and the second call is a pure no-op returning the same set. -/
theorem getBlockReceipts_idempotent_witness :
    GetBlockReceipts odrDerive 5 1 =
      (.ok [⟨7, [11]⟩], writeReceipts odrDerive 5 1 [⟨7, [11]⟩], [(5, 1)])
    ∧ GetBlockReceipts (writeReceipts odrDerive 5 1 [⟨7, [11]⟩]) 5 1 =
      (.ok [⟨7, [11]⟩], writeReceipts odrDerive 5 1 [⟨7, [11]⟩], []) :=
  ⟨rfl,
   getBlockReceipts_idempotent odrDerive 5 1 [⟨7, [11]⟩]
     (writeReceipts odrDerive 5 1 [⟨7, [11]⟩]) [(5, 1)] (by rfl)
     (by intro r0 rest h; injection h with h1 h2; subst h1; decide)⟩

/-- C6: `GetUntrustedBlockLogs` never mutates the local store (the backend
comes back unchanged and the write log is empty, so a prior miss is still a
miss afterwards), and the returned logs are projected from raw receipts —
local or untrusted-remote — on which no derivation was performed. -/
theorem getUntrustedBlockLogs_no_write (odr : OdrBackend) (header : Header) :
    (GetUntrustedBlockLogs odr header).2.1 = odr
    ∧ (GetUntrustedBlockLogs odr header).2.2 = []
    ∧ (odr.store.rawReceipts header.hash header.number = none →
        (GetUntrustedBlockLogs odr
            header).2.1.store.rawReceipts header.hash header.number = none)
    ∧ (∀ ls, (GetUntrustedBlockLogs odr header).1 = .ok ls →
        ∃ receipts, ls = receipts.map Receipt.logs
          ∧ (odr.store.rawReceipts header.hash header.number = some receipts
             ∨ (odr.store.rawReceipts header.hash header.number = none
                ∧ odr.remote.retrieveUntrustedReceipts header = .ok receipts))) := by
  cases hloc : odr.store.rawReceipts header.hash header.number with
  | some rs =>
    refine ⟨by simp [GetUntrustedBlockLogs, hloc], by simp [GetUntrustedBlockLogs, hloc],
      by simp [hloc], ?_⟩
    intro ls hls
    simp [GetUntrustedBlockLogs, hloc] at hls
    exact ⟨rs, hls.symm, Or.inl rfl⟩
  | none =>
    cases hrem : odr.remote.retrieveUntrustedReceipts header with
    | error c =>
      refine ⟨by simp [GetUntrustedBlockLogs, hloc, hrem],
        by simp [GetUntrustedBlockLogs, hloc, hrem],
        by intro _; simp [GetUntrustedBlockLogs, hloc, hrem, hloc], ?_⟩
      intro ls hls
      simp [GetUntrustedBlockLogs, hloc, hrem] at hls
    | ok rs =>
      refine ⟨by simp [GetUntrustedBlockLogs, hloc, hrem],
        by simp [GetUntrustedBlockLogs, hloc, hrem],
        by intro _; simp [GetUntrustedBlockLogs, hloc, hrem, hloc], ?_⟩
      intro ls hls
      simp [GetUntrustedBlockLogs, hloc, hrem] at hls
      exact ⟨rs, hls.symm, Or.inr ⟨rfl, rfl⟩⟩

/-- Witness for C6: after resolving untrusted logs for header (hash 9,
height 2), the local receipts at (9, 2) still miss, the write log is empty
and the logs come from the raw remote receipts. -/
theorem getUntrustedBlockLogs_no_write_witness :
    (GetUntrustedBlockLogs odrUntrusted ⟨9, 2⟩).2.1.store.rawReceipts 9 2 = none
    ∧ (GetUntrustedBlockLogs odrUntrusted ⟨9, 2⟩).2.2 = []
    ∧ (GetUntrustedBlockLogs odrUntrusted ⟨9, 2⟩).1 = .ok [[3]] :=
  ⟨(getUntrustedBlockLogs_no_write odrUntrusted ⟨9, 2⟩).2.2.1 rfl,
   (getUntrustedBlockLogs_no_write odrUntrusted ⟨9, 2⟩).2.1,
   rfl⟩

/-- `enumSections k l` pairs every element with its position shifted by `k`. -/
theorem enumSections_getElem? (l : List Nat) :
    ∀ k p, (enumSections k l)[p]? = l[p]?.map fun s => (k + p, s) := by
  induction l with
  | nil => intro k p; simp [enumSections]
  | cons s rest ih =>
    intro k p
    cases p with
    | zero => simp [enumSections]
    | succ q =>
      simp only [enumSections, List.getElem?_cons_succ, ih (k + 1) q]
      have : k + 1 + q = k + (q + 1) := by omega
      rw [this]

/-- `enumSections` preserves the length. -/
theorem enumSections_length (l : List Nat) : ∀ k, (enumSections k l).length = l.length := by
  induction l with
  | nil => intro k; simp [enumSections]
  | cons s rest ih => intro k; simp [enumSections, ih]

/-- Every member of `enumSections k l` carries an index at least `k` and its
element at the corresponding list position. -/
theorem enumSections_mem_le (l : List Nat) :
    ∀ k i s, (i, s) ∈ enumSections k l → k ≤ i ∧ l[i - k]? = some s := by
  induction l with
  | nil => intro k i s h; simp [enumSections] at h
  | cons t rest ih =>
    intro k i s h
    simp only [enumSections, List.mem_cons, Prod.mk.injEq] at h
    rcases h with ⟨hi, hs⟩ | h
    · subst hi; subst hs; simp
    · obtain ⟨hk, hget⟩ := ih (k + 1) i s h
      refine ⟨by omega, ?_⟩
      have hik : i - k = (i - (k + 1)) + 1 := by omega
      rw [hik]
      simpa using hget

/-- Members of `enumSections k l` are below `k + l.length`. -/
theorem enumSections_mem_lt (l : List Nat) (k i s : Nat)
    (h : (i, s) ∈ enumSections k l) : i < k + l.length := by
  obtain ⟨hk, hget⟩ := enumSections_mem_le l k i s h
  by_contra hcon
  have : l.length ≤ i - k := by omega
  rw [List.getElem?_eq_none this] at hget
  cases hget

/-- The slot indices of `enumSections` determine the paired element. -/
theorem enumSections_fst_inj (l : List Nat) (k i s s' : Nat)
    (h1 : (i, s) ∈ enumSections k l) (h2 : (i, s') ∈ enumSections k l) : s = s' := by
  obtain ⟨_, hg1⟩ := enumSections_mem_le l k i s h1
  obtain ⟨_, hg2⟩ := enumSections_mem_le l k i s' h2
  rw [hg1] at hg2
  injection hg2

/-- The slot indices of `enumSections` are pairwise distinct. -/
theorem enumSections_fst_nodup (l : List Nat) :
    ∀ k, ((enumSections k l).map Prod.fst).Nodup := by
  induction l with
  | nil => intro k; simp [enumSections]
  | cons t rest ih =>
    intro k
    simp only [enumSections, List.map_cons, List.nodup_cons]
    refine ⟨?_, ih (k + 1)⟩
    intro hmem
    simp only [List.mem_map] at hmem
    obtain ⟨⟨i, s⟩, hm, hfst⟩ := hmem
    obtain ⟨hk, _⟩ := enumSections_mem_le rest (k + 1) i s hm
    simp at hfst
    omega

/-- A successful gather pass appends exactly the missed sections to
`reqList`, their slots to `reqIdx`, and preserves the result length. -/
theorem gatherLoop_ok_acc (odr : OdrBackend) (bitIdx cnt : Nat) :
    ∀ (pairs : List (Nat × Nat)) res reqList reqIdx res' reqList' reqIdx',
      gatherLoop odr bitIdx cnt pairs res reqList reqIdx = .ok (res', reqList', reqIdx') →
      reqList' = reqList
          ++ ((pairs.filter fun p => (localBloom odr bitIdx p.2).isNone).map Prod.snd)
      ∧ reqIdx' = reqIdx
          ++ ((pairs.filter fun p => (localBloom odr bitIdx p.2).isNone).map Prod.fst)
      ∧ res'.length = res.length := by
  intro pairs
  induction pairs with
  | nil =>
    intro res reqList reqIdx res' reqList' reqIdx' h
    simp [gatherLoop] at h
    obtain ⟨h1, h2, h3⟩ := h
    subst h1; subst h2; subst h3
    simp
  | cons hd rest ih =>
    intro res reqList reqIdx res' reqList' reqIdx' h
    obtain ⟨i, s⟩ := hd
    cases hlb : localBloom odr bitIdx s with
    | some v =>
      simp only [gatherLoop, hlb] at h
      obtain ⟨h1, h2, h3⟩ := ih _ _ _ _ _ _ h
      refine ⟨?_, ?_, ?_⟩
      · rw [h1]; simp [List.filter_cons, hlb]
      · rw [h2]; simp [List.filter_cons, hlb]
      · rw [h3]; simp
    | none =>
      simp only [gatherLoop, hlb] at h
      by_cases hge : cnt ≤ s
      · rw [if_pos hge] at h; cases h
      · rw [if_neg hge] at h
        obtain ⟨h1, h2, h3⟩ := ih _ _ _ _ _ _ h
        refine ⟨?_, ?_, h3⟩
        · rw [h1]; simp [List.filter_cons, hlb]
        · rw [h2]; simp [List.filter_cons, hlb]

/-- A gather pass leaves every slot whose index occurs in no processed pair
unchanged. -/
theorem gatherLoop_ok_untouched (odr : OdrBackend) (bitIdx cnt : Nat) :
    ∀ (pairs : List (Nat × Nat)) res reqList reqIdx res' reqList' reqIdx' j,
      gatherLoop odr bitIdx cnt pairs res reqList reqIdx = .ok (res', reqList', reqIdx') →
      (∀ s, (j, s) ∉ pairs) → res'[j]? = res[j]? := by
  intro pairs
  induction pairs with
  | nil =>
    intro res reqList reqIdx res' reqList' reqIdx' j h hnp
    simp [gatherLoop] at h
    obtain ⟨h1, _, _⟩ := h
    subst h1; rfl
  | cons hd rest ih =>
    intro res reqList reqIdx res' reqList' reqIdx' j h hnp
    obtain ⟨i, s⟩ := hd
    have hji : i ≠ j := by
      intro hcon; subst hcon
      exact hnp s (List.mem_cons_self _ _)
    have hnp' : ∀ s', (j, s') ∉ rest := by
      intro s' hcon
      exact hnp s' (List.mem_cons_of_mem _ hcon)
    cases hlb : localBloom odr bitIdx s with
    | some v =>
      simp only [gatherLoop, hlb] at h
      rw [ih _ _ _ _ _ _ j h hnp']
      exact List.getElem?_set_ne hji
    | none =>
      simp only [gatherLoop, hlb] at h
      by_cases hge : cnt ≤ s
      · rw [if_pos hge] at h; cases h
      · rw [if_neg hge] at h
        exact ih _ _ _ _ _ _ j h hnp'

/-- A gather pass fills the slot of every locally-hit section with its local
bit-vector, provided the pair indices determine their sections. -/
theorem gatherLoop_ok_hit (odr : OdrBackend) (bitIdx cnt : Nat) :
    ∀ (pairs : List (Nat × Nat)) res reqList reqIdx res' reqList' reqIdx' i s v,
      gatherLoop odr bitIdx cnt pairs res reqList reqIdx = .ok (res', reqList', reqIdx') →
      (i, s) ∈ pairs → localBloom odr bitIdx s = some v →
      (∀ s', (i, s') ∈ pairs → s' = s) → i < res.length →
      res'[i]? = some (some v) := by
  intro pairs
  induction pairs with
  | nil =>
    intro res reqList reqIdx res' reqList' reqIdx' i s v _ hmem
    simp at hmem
  | cons hd rest ih =>
    intro res reqList reqIdx res' reqList' reqIdx' i s v h hmem hlb huniq hlt
    obtain ⟨j, t⟩ := hd
    have huniq' : ∀ s', (i, s') ∈ rest → s' = s := by
      intro s' hm
      exact huniq s' (List.mem_cons_of_mem _ hm)
    rcases List.mem_cons.mp hmem with heq | hrest
    · obtain ⟨hj, ht⟩ := Prod.mk.injEq .. ▸ heq
      subst hj; subst ht
      simp only [gatherLoop, hlb] at h
      by_cases hmore : ∃ s', (i, s') ∈ rest
      · obtain ⟨s', hs'⟩ := hmore
        have hss : s' = s := huniq' s' hs'
        subst hss
        exact ih _ _ _ _ _ _ i s' v h hs' hlb huniq' (by simpa using hlt)
      · have hnp : ∀ s', (i, s') ∉ rest := by
          intro s' hcon
          exact hmore ⟨s', hcon⟩
        rw [gatherLoop_ok_untouched odr bitIdx cnt rest _ _ _ _ _ _ i h hnp]
        exact List.getElem?_set_self hlt
    · cases hlbt : localBloom odr bitIdx t with
      | some w =>
        simp only [gatherLoop, hlbt] at h
        exact ih _ _ _ _ _ _ i s v h hrest hlb huniq' (by simpa using hlt)
      | none =>
        simp only [gatherLoop, hlbt] at h
        by_cases hge : cnt ≤ t
        · rw [if_pos hge] at h; cases h
        · rw [if_neg hge] at h
          exact ih _ _ _ _ _ _ i s v h hrest hlb huniq' hlt

/-- The gather pass aborts with `ErrNoTrustedBloomTrie` as soon as any
processed section misses locally at or beyond the trusted count. -/
theorem gatherLoop_error_beyond (odr : OdrBackend) (bitIdx cnt : Nat) :
    ∀ (pairs : List (Nat × Nat)) res reqList reqIdx i s,
      (i, s) ∈ pairs → localBloom odr bitIdx s = none → cnt ≤ s →
      gatherLoop odr bitIdx cnt pairs res reqList reqIdx = .error .noTrustedBloomTrie := by
  intro pairs
  induction pairs with
  | nil =>
    intro res reqList reqIdx i s hmem
    simp at hmem
  | cons hd rest ih =>
    intro res reqList reqIdx i s hmem hlb hge
    obtain ⟨j, t⟩ := hd
    rcases List.mem_cons.mp hmem with heq | hrest
    · obtain ⟨hj, ht⟩ := Prod.mk.injEq .. ▸ heq
      subst hj; subst ht
      simp [gatherLoop, hlb, hge]
    · cases hlbt : localBloom odr bitIdx t with
      | some w =>
        simp only [gatherLoop, hlbt]
        exact ih _ _ _ i s hrest hlb hge
      | none =>
        simp only [gatherLoop, hlbt]
        by_cases hget : cnt ≤ t
        · rw [if_pos hget]
        · rw [if_neg hget]
          exact ih _ _ _ i s hrest hlb hge

/-- The scatter step preserves the result length. -/
theorem scatterResp_length :
    ∀ (reqIdx : List Nat) (resp : List Bytes) (res : List (Option Bytes)),
      (scatterResp res reqIdx resp).length = res.length := by
  intro reqIdx
  induction reqIdx with
  | nil => intro resp res; cases resp <;> simp [scatterResp]
  | cons i ri ih =>
    intro resp res
    cases resp with
    | nil => simp [scatterResp]
    | cons b resp' => simp [scatterResp, ih]

/-- The scatter step leaves every slot outside `reqIdx` unchanged. -/
theorem scatterResp_untouched :
    ∀ (reqIdx : List Nat) (resp : List Bytes) (res : List (Option Bytes)) (j : Nat),
      j ∉ reqIdx → (scatterResp res reqIdx resp)[j]? = res[j]? := by
  intro reqIdx
  induction reqIdx with
  | nil => intro resp res j _; cases resp <;> simp [scatterResp]
  | cons i ri ih =>
    intro resp res j hj
    cases resp with
    | nil => simp [scatterResp]
    | cons b resp' =>
      have hij : i ≠ j := by
        intro hcon; subst hcon
        exact hj (List.mem_cons_self _ _)
      have hj' : j ∉ ri := fun hcon => hj (List.mem_cons_of_mem _ hcon)
      rw [scatterResp, ih resp' _ j hj']
      exact List.getElem?_set_ne hij

/-- The scatter step puts the `p`-th response element exactly into the slot
recorded at position `p` of `reqIdx`, for pairwise-distinct recorded slots. -/
theorem scatterResp_target :
    ∀ (reqIdx : List Nat) (resp : List Bytes) (res : List (Option Bytes)) (p i : Nat)
      (b : Bytes),
      reqIdx.Nodup → reqIdx[p]? = some i → resp[p]? = some b → i < res.length →
      (scatterResp res reqIdx resp)[i]? = some (some b) := by
  intro reqIdx
  induction reqIdx with
  | nil =>
    intro resp res p i b _ hri
    simp at hri
  | cons i0 ri ih =>
    intro resp res p i b hnd hri hresp hlt
    cases resp with
    | nil => simp at hresp
    | cons b0 resp' =>
      rcases List.nodup_cons.mp hnd with ⟨hni, hnd'⟩
      cases p with
      | zero =>
        simp only [List.getElem?_cons_zero, Option.some.injEq] at hri hresp
        subst hri; subst hresp
        rw [scatterResp, scatterResp_untouched ri resp' _ _ hni]
        exact List.getElem?_set_self hlt
      | succ q =>
        simp only [List.getElem?_cons_succ] at hri hresp
        rw [scatterResp]
        exact ih resp' _ q i b hnd' hri hresp (by simpa using hlt)

/-- Every list member owns a slot in its enumeration. -/
theorem enumSections_mem_of_mem (l : List Nat) :
    ∀ k s, s ∈ l → ∃ i, (i, s) ∈ enumSections k l := by
  induction l with
  | nil => intro k s h; simp at h
  | cons t rest ih =>
    intro k s h
    rcases List.mem_cons.mp h with heq | hrest
    · subst heq
      exact ⟨k, List.mem_cons_self _ _⟩
    · obtain ⟨i, hi⟩ := ih (k + 1) s hrest
      exact ⟨i, List.mem_cons_of_mem _ hi⟩

/-- C3: any local miss at or beyond the reconciled trusted-section count
makes `GetBloomBits` fail with the distinct `ErrNoTrustedBloomTrie` error,
with no remote request issued at all; that error kind differs from every
ordinary transport failure. -/
theorem getBloomBits_noTrustedIndex (odr : OdrBackend) (bitIdx : Nat)
    (sectionIdxList : List Nat) (s : Nat)
    (hmem : s ∈ sectionIdxList)
    (hmiss : localBloom odr bitIdx s = none)
    (hge : (reconciledBoundary odr).1 ≤ s) :
    GetBloomBits odr bitIdx sectionIdxList = (.error .noTrustedBloomTrie, [])
    ∧ ∀ c, Err.noTrustedBloomTrie ≠ Err.transport c := by
  constructor
  · obtain ⟨i, hi⟩ := enumSections_mem_of_mem sectionIdxList 0 s hmem
    have herr := gatherLoop_error_beyond odr bitIdx (reconciledBoundary odr).1
      (enumSections 0 sectionIdxList) (List.replicate sectionIdxList.length none)
      [] [] i s hi hmiss hge
    simp [GetBloomBits, herr]
  · intro c h
    cases h

/-- Witness for C3: an indexer-free backend (trusted count 0) with an empty
store rejects a request for section 0 with `ErrNoTrustedBloomTrie` and sends
nothing. -/
theorem getBloomBits_noTrustedIndex_witness :
    GetBloomBits (mkLocalBackend emptyStore) 3 [0]
      = (.error .noTrustedBloomTrie, []) :=
  (getBloomBits_noTrustedIndex (mkLocalBackend emptyStore) 3 [0] 0
    (by decide) rfl (by decide)).1

/-- Index lookups in the request list map back into the enumeration. -/
theorem missPairs_mem (odr : OdrBackend) (bitIdx : Nat) (l : List Nat) (i s : Nat)
    (h : (i, s) ∈ missPairs odr bitIdx l) :
    (i, s) ∈ enumSections 0 l ∧ localBloom odr bitIdx s = none := by
  rw [missPairs, List.mem_filter] at h
  refine ⟨h.1, ?_⟩
  simpa [Option.isNone_iff_eq_none] using h.2

/-- The recorded miss slots are pairwise distinct. -/
theorem missPairs_fst_nodup (odr : OdrBackend) (bitIdx : Nat) (l : List Nat) :
    ((missPairs odr bitIdx l).map Prod.fst).Nodup := by
  have hsub : List.Sublist (missPairs odr bitIdx l) (enumSections 0 l) :=
    List.filter_sublist _
  exact (hsub.map Prod.fst).nodup (enumSections_fst_nodup l 0)

/-- C2: positional merging in `GetBloomBits`.  A successful call returns one
slot per requested section in request order; every locally-found section
fills its own slot; when no section misses, no remote request is issued and
the result is fully local; otherwise exactly one request is sent, carrying
exactly the missed sections, and each element of the response is scattered
back into the slot recorded when its miss was queued. -/
theorem getBloomBits_positional_merge (odr : OdrBackend) (bitIdx : Nat)
    (sectionIdxList : List Nat) (res : List (Option Bytes)) (log : List BloomRequest)
    (hok : GetBloomBits odr bitIdx sectionIdxList = (.ok res, log)) :
    res.length = sectionIdxList.length
    ∧ (∀ (i s : Nat) (v : Bytes), sectionIdxList[i]? = some s →
        localBloom odr bitIdx s = some v → res[i]? = some (some v))
    ∧ (missPairs odr bitIdx sectionIdxList = [] →
        log = [] ∧ res = sectionIdxList.map fun s => localBloom odr bitIdx s)
    ∧ (missPairs odr bitIdx sectionIdxList ≠ [] →
        ∃ (req : BloomRequest) (resp : List Bytes), log = [req]
          ∧ req.bitIdx = bitIdx
          ∧ req.sectionIndexList = (missPairs odr bitIdx sectionIdxList).map Prod.snd
          ∧ odr.remote.retrieveBloom req = .ok resp
          ∧ ∀ p i s : Nat, (missPairs odr bitIdx sectionIdxList)[p]? = some (i, s) →
              ∃ b : Bytes, resp[p]? = some b ∧ res[i]? = some (some b)) := by
  have hpairs_mem : ∀ i s, sectionIdxList[i]? = some s →
      (i, s) ∈ enumSections 0 sectionIdxList := by
    intro i s h
    have hg := enumSections_getElem? sectionIdxList 0 i
    rw [h] at hg
    simp only [Option.map_some', Nat.zero_add] at hg
    exact List.getElem?_mem hg
  cases hloop : gatherLoop odr bitIdx (reconciledBoundary odr).1
      (enumSections 0 sectionIdxList)
      (List.replicate sectionIdxList.length none) [] [] with
  | error e => simp [GetBloomBits, hloop] at hok
  | ok trip =>
    obtain ⟨resA, reqL, reqI⟩ := trip
    obtain ⟨hrl, hri, hlenA⟩ :=
      gatherLoop_ok_acc odr bitIdx (reconciledBoundary odr).1 _ _ _ _ _ _ _ hloop
    have hrlm : reqL = (missPairs odr bitIdx sectionIdxList).map Prod.snd := by
      simpa [missPairs] using hrl
    have hrim : reqI = (missPairs odr bitIdx sectionIdxList).map Prod.fst := by
      simpa [missPairs] using hri
    have hlenA' : resA.length = sectionIdxList.length := by
      simpa using hlenA
    have hhitA : ∀ (i s : Nat) (v : Bytes), sectionIdxList[i]? = some s →
        localBloom odr bitIdx s = some v → resA[i]? = some (some v) := by
      intro i s v hgets hlb
      have hmem := hpairs_mem i s hgets
      have hlt : i < sectionIdxList.length := by
        rcases List.getElem?_eq_some_iff.mp hgets with ⟨hl, _⟩
        exact hl
      refine gatherLoop_ok_hit odr bitIdx (reconciledBoundary odr).1 _ _ _ _ _ _ _
        i s v hloop hmem hlb ?_ (by simpa using hlt)
      intro s' h'
      exact enumSections_fst_inj sectionIdxList 0 i s' s h' hmem
    have hhit_not_miss : ∀ i s v, sectionIdxList[i]? = some s →
        localBloom odr bitIdx s = some v → i ∉ reqI := by
      intro i s v hgets hlb hcon
      rw [hrim] at hcon
      rcases List.mem_map.mp hcon with ⟨⟨i', b⟩, hmb, hfst⟩
      simp only at hfst
      rw [hfst] at hmb
      obtain ⟨hbp, hbnone⟩ := missPairs_mem odr bitIdx sectionIdxList i b hmb
      have hbs : b = s := enumSections_fst_inj sectionIdxList 0 i b s hbp (hpairs_mem i s hgets)
      rw [hbs, hlb] at hbnone
      cases hbnone
    by_cases hreq : reqL = []
    · have hmp : missPairs odr bitIdx sectionIdxList = [] := by
        rw [hreq] at hrlm
        exact List.map_eq_nil_iff.mp hrlm.symm
      simp only [GetBloomBits, hloop, hreq, if_pos, Prod.mk.injEq, Except.ok.injEq] at hok
      obtain ⟨hres, hlog⟩ := hok
      subst hres; subst hlog
      refine ⟨hlenA', hhitA, ?_, ?_⟩
      · intro _
        refine ⟨rfl, ?_⟩
        refine List.ext_getElem? ?_
        intro n
        cases hn : sectionIdxList[n]? with
        | none =>
          have hlen_le : sectionIdxList.length ≤ n := List.getElem?_eq_none_iff.mp hn
          rw [List.getElem?_eq_none (by rw [hlenA']; exact hlen_le),
            List.getElem?_eq_none (by simpa using hlen_le)]
        | some s =>
          cases hls : localBloom odr bitIdx s with
          | none =>
            exfalso
            have hin : (n, s) ∈ missPairs odr bitIdx sectionIdxList := by
              rw [missPairs, List.mem_filter]
              exact ⟨hpairs_mem n s hn, by simp [hls]⟩
            rw [hmp] at hin
            simp at hin
          | some v =>
            rw [hhitA n s v hn hls]
            simp [hn, hls]
      · intro hne
        exact absurd hmp hne
    · cases hrem : odr.remote.retrieveBloom
          ⟨odr.store.bloomTrieRoot ((reconciledBoundary odr).1 - 1)
            (reconciledBoundary odr).2.2,
           (reconciledBoundary odr).1 - 1, bitIdx, reqL⟩ with
      | error c => simp [GetBloomBits, hloop, hreq, hrem] at hok
      | ok resp =>
        by_cases hlen : resp.length < reqI.length
        · simp [GetBloomBits, hloop, hreq, hrem, hlen] at hok
        · simp only [GetBloomBits, hloop, hreq, if_neg, hrem, hlen, if_false,
            Prod.mk.injEq, Except.ok.injEq, ite_false] at hok
          obtain ⟨hres, hlog⟩ := hok
          subst hres; subst hlog
          have hnd : reqI.Nodup := by
            rw [hrim]
            exact missPairs_fst_nodup odr bitIdx sectionIdxList
          refine ⟨?_, ?_, ?_, ?_⟩
          · rw [scatterResp_length]
            exact hlenA'
          · intro i s v hgets hlb
            rw [scatterResp_untouched reqI resp resA i (hhit_not_miss i s v hgets hlb)]
            exact hhitA i s v hgets hlb
          · intro hmp
            rw [hmp] at hrlm
            simp only [List.map_nil] at hrlm
            exact absurd hrlm hreq
          · intro _
            refine ⟨_, resp, rfl, rfl, hrlm, hrem, ?_⟩
            intro p i s hp
            have hpmem : (i, s) ∈ missPairs odr bitIdx sectionIdxList :=
              List.getElem?_mem hp
            obtain ⟨hppair, _⟩ := missPairs_mem odr bitIdx sectionIdxList i s hpmem
            have hplt : p < (missPairs odr bitIdx sectionIdxList).length :=
              (List.getElem?_eq_some_iff.mp hp).1
            have hrIp : reqI[p]? = some i := by
              rw [hrim]
              simp [hp]
            have hplt2 : p < resp.length := by
              push_neg at hlen
              have hlenI : reqI.length = (missPairs odr bitIdx sectionIdxList).length := by
                rw [hrim]; simp
              omega
            cases hbv : resp[p]? with
            | none =>
              have := List.getElem?_eq_none_iff.mp hbv
              omega
            | some b =>
              have hilt : i < resA.length := by
                rw [hlenA']
                have := enumSections_mem_lt sectionIdxList 0 i s hppair
                simpa using this
              exact ⟨b, rfl, scatterResp_target reqI resp resA p i b hnd hrIp hbv hilt⟩

/-- Witness for C2 on `odrBloom`: requesting bit 3 over sections [10, 11]
yields a two-slot result (slot 0 from local storage, slot 1 scattered from
the response) and exactly one remote request covering only section 11. -/
theorem getBloomBits_positional_merge_witness :
    GetBloomBits odrBloom 3 [10, 11]
      = (.ok [some [1, 2], some [9, 9]], [⟨0, 11, 3, [11]⟩])
    ∧ ([some [1, 2], some [9, 9]] : List (Option Bytes)).length = [10, 11].length
    ∧ (∃ (req : BloomRequest) (resp : List Bytes),
        [(⟨0, 11, 3, [11]⟩ : BloomRequest)] = [req]
        ∧ req.bitIdx = 3
        ∧ req.sectionIndexList = (missPairs odrBloom 3 [10, 11]).map Prod.snd
        ∧ odrBloom.remote.retrieveBloom req = .ok resp
        ∧ ∀ p i s : Nat, (missPairs odrBloom 3 [10, 11])[p]? = some (i, s) →
            ∃ b : Bytes, resp[p]? = some b
              ∧ ([some [1, 2], some [9, 9]] : List (Option Bytes))[i]?
                  = some (some b)) :=
  ⟨rfl,
   (getBloomBits_positional_merge odrBloom 3 [10, 11] _ _ rfl).1,
   (getBloomBits_positional_merge odrBloom 3 [10, 11] _ _ rfl).2.2.2 (by decide)⟩

/-- The reconciliation loop never increases the trusted count. -/
theorem reconcileState_fst_le (size : Nat) (canon sh : Nat → Nat) :
    ∀ c headNum head, (reconcileState size canon sh c headNum head).1 ≤ c := by
  intro c
  induction c with
  | zero => intro headNum head; simp [reconcileState]
  | succ k ih =>
    intro headNum head
    by_cases h : canon headNum = head ∨ canon headNum = 0
    · simp [reconcileState, h]
    · by_cases hk : k = 0
      · simp [reconcileState, h, hk]
      · simp only [reconcileState, h, hk, if_false, ite_false]
        exact le_trans (ih _ _) (Nat.le_succ k)

/-- Once the loop state has been recomputed from a positive count — head
height `c * size - 1`, head hash `SectionHead (c - 1)` — the loop ends at a
count that is zero or whose section head matches the canonical hash at its
head height (a zero canonical hash counting as a match). -/
theorem reconcileState_post (size : Nat) (canon sh : Nat → Nat) :
    ∀ c hn hd, 0 < c → hn = c * size - 1 → hd = sh (c - 1) →
      (reconcileState size canon sh c hn hd).1 = 0
      ∨ canon ((reconcileState size canon sh c hn hd).1 * size - 1)
          = sh ((reconcileState size canon sh c hn hd).1 - 1)
      ∨ canon ((reconcileState size canon sh c hn hd).1 * size - 1) = 0 := by
  intro c
  induction c using Nat.strong_induction_on with
  | _ c ih =>
    intro hn hd hc hhn hhd
    cases c with
    | zero => omega
    | succ k =>
      by_cases h : canon hn = hd ∨ canon hn = 0
      · have hstop : reconcileState size canon sh (k + 1) hn hd = (k + 1, hn, hd) := by
          simp [reconcileState, h]
        rw [hstop]
        subst hhn; subst hhd
        exact Or.inr h
      · by_cases hk : k = 0
        · have hzero : reconcileState size canon sh (k + 1) hn hd = (0, hn, hd) := by
            simp [reconcileState, h, hk]
          rw [hzero]
          exact Or.inl rfl
        · have hrec : reconcileState size canon sh (k + 1) hn hd
              = reconcileState size canon sh k (k * size - 1) (sh (k - 1)) := by
            simp [reconcileState, h, hk]
          rw [hrec]
          exact ih k (Nat.lt_succ_self k) _ _ (Nat.pos_of_ne_zero hk) rfl rfl

/-- C1: the bloom-index trust-boundary reconciliation used by `GetBloomBits`
terminates (it is a total function here, each iteration strictly decreasing
the count): starting from a trusted count `c0 > 0` whose recorded section
head no longer matches the (non-zero) canonical hash at the head height, the
final count is strictly below `c0` and is zero or has its section head at
count − 1 matching the canonical state; a zero/unknown canonical hash at the
head height is accepted as matching and causes no decrement at all. -/
theorem getBloomBits_reconciliation (odr : OdrBackend) (ix : Indexer)
    (c0 hn0 h0 : Nat)
    (hix : odr.indexer = some ix) (hsec : ix.sections = (c0, hn0, h0))
    (hc : 0 < c0)
    (hne : odr.store.canonicalHash hn0 ≠ h0)
    (hnz : odr.store.canonicalHash hn0 ≠ 0) :
    (reconciledBoundary odr).1 < c0
    ∧ ((reconciledBoundary odr).1 = 0
       ∨ odr.store.canonicalHash
             ((reconciledBoundary odr).1 * odr.bloomTrieSize - 1)
           = ix.sectionHead ((reconciledBoundary odr).1 - 1)
       ∨ odr.store.canonicalHash
             ((reconciledBoundary odr).1 * odr.bloomTrieSize - 1) = 0)
    ∧ (∀ c hn h, odr.store.canonicalHash hn = 0 →
        reconcileState odr.bloomTrieSize odr.store.canonicalHash ix.sectionHead
          c hn h = (c, hn, h)) := by
  have hbd : reconciledBoundary odr
      = reconcileState odr.bloomTrieSize odr.store.canonicalHash ix.sectionHead
          c0 hn0 h0 := by
    simp [reconciledBoundary, hix, hsec]
  have hcond : ¬(odr.store.canonicalHash hn0 = h0 ∨ odr.store.canonicalHash hn0 = 0) := by
    intro h; rcases h with h | h
    · exact hne h
    · exact hnz h
  match c0, hc with
  | k + 1, _ =>
    refine ⟨?_, ?_, ?_⟩
    · by_cases hk : k = 0
      · subst hk
        rw [hbd]
        simp [reconcileState, hcond]
      · have hrec : reconcileState odr.bloomTrieSize odr.store.canonicalHash
            ix.sectionHead (k + 1) hn0 h0
            = reconcileState odr.bloomTrieSize odr.store.canonicalHash
                ix.sectionHead k (k * odr.bloomTrieSize - 1) (ix.sectionHead (k - 1)) := by
          simp [reconcileState, hcond, hk]
        rw [hbd, hrec]
        exact Nat.lt_succ_of_le (reconcileState_fst_le _ _ _ _ _ _)
    · by_cases hk : k = 0
      · subst hk
        rw [hbd]
        simp [reconcileState, hcond]
      · have hrec : reconcileState odr.bloomTrieSize odr.store.canonicalHash
            ix.sectionHead (k + 1) hn0 h0
            = reconcileState odr.bloomTrieSize odr.store.canonicalHash
                ix.sectionHead k (k * odr.bloomTrieSize - 1) (ix.sectionHead (k - 1)) := by
          simp [reconcileState, hcond, hk]
        rw [hbd, hrec]
        exact reconcileState_post _ _ _ k _ _ (Nat.pos_of_ne_zero hk) rfl rfl
    · intro c hn h hzero
      cases c with
      | zero => simp [reconcileState]
      | succ c' => simp [reconcileState, hzero]

/-- Witness for C1: on `odrRecon` the reconciliation rolls the count back
from 2 and stops at a count that matches the canonical state. -/
theorem getBloomBits_reconciliation_witness :
    (reconciledBoundary odrRecon).1 < 2
    ∧ ((reconciledBoundary odrRecon).1 = 0
       ∨ odrRecon.store.canonicalHash
             ((reconciledBoundary odrRecon).1 * odrRecon.bloomTrieSize - 1)
           = reconIx.sectionHead ((reconciledBoundary odrRecon).1 - 1)
       ∨ odrRecon.store.canonicalHash
             ((reconciledBoundary odrRecon).1 * odrRecon.bloomTrieSize - 1) = 0) :=
  ⟨(getBloomBits_reconciliation odrRecon reconIx 2 7 6 rfl rfl (by decide)
      (by decide) (by decide)).1,
   (getBloomBits_reconciliation odrRecon reconIx 2 7 6 rfl rfl (by decide)
      (by decide) (by decide)).2.1⟩

/-- C4: `GetTransaction` rejects an invalid locator.  When the remote status
answer reports inclusion but the canonical header resolved at the locator's
height hashes differently from the claimed block hash, or the index is out
of bounds of the resolved body, or the transaction there does not hash to
the queried hash, the call returns no transaction. -/
theorem getTransaction_rejects_invalid_locator (odr : OdrBackend) (txHash : Nat)
    (st : TxStatusEntry) (hdr : Header)
    (hst : odr.remote.retrieveTxStatus txHash = .ok st)
    (hinc : st.status = txStatusIncluded)
    (hhdr : GetHeaderByNumber odr st.lookup.blockIndex = .ok (some hdr))
    (hbad : hdr.hash ≠ st.lookup.blockHash
      ∨ (∃ body : Body,
           (GetBody odr st.lookup.blockHash st.lookup.blockIndex).1 = .ok body
           ∧ body.transactions[st.lookup.index]? = none)
      ∨ (∃ (body : Body) (tx : Tx),
           (GetBody odr st.lookup.blockHash st.lookup.blockIndex).1 = .ok body
           ∧ body.transactions[st.lookup.index]? = some tx ∧ tx.hash ≠ txHash)) :
    ∃ r : TxResult, GetTransaction odr txHash = .ok r ∧ r.tx = none := by
  by_cases hh : hdr.hash = st.lookup.blockHash
  case neg =>
    refine ⟨⟨none, 0, 0, 0, none⟩, ?_, rfl⟩
    simp [GetTransaction, hst, hinc, hhdr, headerHashOrNil, hh]
  case pos =>
    rcases hbad with hbad | ⟨body, hbody, hoob⟩ | ⟨body, tx, hbody, htx, hne⟩
    · exact absurd hh hbad
    · refine ⟨⟨none, 0, 0, 0, none⟩, ?_, rfl⟩
      simp [GetTransaction, hst, hinc, hhdr, headerHashOrNil, hh, hbody, hoob]
    · refine ⟨⟨none, 0, 0, 0, none⟩, ?_, rfl⟩
      simp [GetTransaction, hst, hinc, hhdr, headerHashOrNil, hh, hbody, htx, hne]

/-- Witness for C4: on `odrTxBad` the responder's claimed block hash 99
differs from the canonical header hash 9 at height 4, so no transaction
comes back. -/
theorem getTransaction_rejects_invalid_locator_witness :
    ∃ r : TxResult, GetTransaction odrTxBad 55 = .ok r ∧ r.tx = none :=
  getTransaction_rejects_invalid_locator odrTxBad 55 ⟨3, ⟨99, 4, 0⟩⟩ ⟨9, 4⟩
    rfl rfl rfl (Or.inl (by decide))

/-- C9: `GetCanonicalHash` is extensionally equal to a direct read of the
recorded canonical hash — the header-by-height fallback branch can never
produce a non-zero hash, because `GetHeaderByNumber` only returns a header
when a canonical hash is already recorded. -/
theorem getCanonicalHash_refines_direct_read (odr : OdrBackend) (n : Nat) :
    GetCanonicalHash odr n = canonicalHashDirect odr n := by
  by_cases h : odr.store.canonicalHash n = 0
  · simp [GetCanonicalHash, GetHeaderByNumber, canonicalHashDirect, h]
  · simp [GetCanonicalHash, canonicalHashDirect, h]

end Fast

namespace Memorydb

/-- C10: `MemoryDatabase.get` returns a value exactly when the database is
open and the key is present — the stored value on a hit, the distinct
not-found error on an absent key, the closed error once `Close` has run —
and never a value together with an error (nor neither). -/
theorem memoryDatabase_get_spec (d : MemoryDatabase) (key : List Nat) :
    ((∃ v, d.get key = .ok v) ↔ ∃ m v, d.db = some m ∧ assocGet m key = some v)
    ∧ (∀ m v, d.db = some m → assocGet m key = some v → d.get key = .ok v)
    ∧ (∀ m, d.db = some m → assocGet m key = none → d.get key = .error .notFound)
    ∧ (d.db = none → d.get key = .error .closed)
    ∧ (d.close.get key = .error .closed) := by
  cases hdb : d.db with
  | none =>
    refine ⟨?_, ?_, ?_, ?_, ?_⟩
    · constructor
      · intro hex
        obtain ⟨v, hv⟩ := hex
        simp [MemoryDatabase.get, hdb] at hv
      · intro hex
        obtain ⟨m, v, hm, _⟩ := hex
        cases hm
    · intro m v hm
      cases hm
    · intro m hm
      cases hm
    · intro _
      simp [MemoryDatabase.get, hdb]
    · simp [MemoryDatabase.get, MemoryDatabase.close]
  | some m =>
    refine ⟨?_, ?_, ?_, ?_, ?_⟩
    · constructor
      · intro hex
        obtain ⟨v, hv⟩ := hex
        cases hv' : assocGet m key with
        | none => simp [MemoryDatabase.get, hdb, hv'] at hv
        | some w => exact ⟨m, w, rfl, hv'⟩
      · intro hex
        obtain ⟨m', v, hm, hv⟩ := hex
        cases hm
        exact ⟨v, by simp [MemoryDatabase.get, hdb, hv]⟩
    · intro m' v hm hv
      cases hm
      simp [MemoryDatabase.get, hdb, hv]
    · intro m' hm hv
      cases hm
      simp [MemoryDatabase.get, hdb, hv]
    · intro hnone
      cases hnone
    · simp [MemoryDatabase.get, MemoryDatabase.close]

/-- Witness for C10 on the concrete one-entry database {[1] ↦ [2]}: a hit on
key [1], a not-found miss on key [3], and the closed error after `Close`. -/
theorem memoryDatabase_get_spec_witness :
    MemoryDatabase.get ⟨some [([1], [2])]⟩ [1] = .ok [2]
    ∧ MemoryDatabase.get ⟨some [([1], [2])]⟩ [3] = .error .notFound
    ∧ MemoryDatabase.get (MemoryDatabase.close ⟨some [([1], [2])]⟩) [1]
        = .error .closed :=
  ⟨(memoryDatabase_get_spec ⟨some [([1], [2])]⟩ [1]).2.1 [([1], [2])] [2] rfl rfl,
   (memoryDatabase_get_spec ⟨some [([1], [2])]⟩ [3]).2.2.1 [([1], [2])] rfl rfl,
   (memoryDatabase_get_spec ⟨some [([1], [2])]⟩ [1]).2.2.2.2⟩

end Memorydb
